import Mathlib

/-!
Verification of the UCT Monte Carlo Tree Search engine in `mtcs.py`
(`UCT(rootstate, itermax, verbose)`, class `Node`, and the `GameState`
capability contract), against its natural-language specification.

Modelling conventions, all derived from the source:

* A game state is an opaque value; the `GameState` contract (mtcs.py lines
  23-57) becomes a record of operations `Game S M`.  Python mutates states in
  place and `Clone` produces an independent deep copy; in a purely functional
  embedding `DoMove` returns the updated value and `Clone` is the identity, so
  `state = rootstate.Clone()` at the top of each iteration is modelled by
  simply reusing the root state value.
* Game results are the floats `0.0`, `0.5`, `1.0`; they are embedded exactly
  as rationals.  Cumulative node scores (`Node.wins`, a float sum of results)
  are therefore rationals as well.  Visit counters are naturals.
* The UCB1 key `c.wins/c.visits + sqrt(2*log(self.visits)/c.visits)`
  (mtcs.py line 462) is real-valued.
* `sorted(xs, key = f)[-1]` (mtcs.py lines 462 and 545/553): Python's `sorted`
  is an ascending stable sort, so its last element is the element of `xs`
  attaining the maximal key that occurs *latest* in `xs`.  This is embedded by
  `pickLastMax`, a fold returning that element together with its index in the
  original list; indexing `[-1]` on an empty list raises `IndexError`, which
  is embedded as `none`.
* `Node.parentNode` exists only to walk back up during backpropagation
  (mtcs.py lines 541-543); the embedding represents the tree as an inductive
  value and performs the backpropagation walk on the return path of the
  recursive descent, updating exactly the nodes on the path from the
  selected/expanded node to the root, each from the viewpoint of its own
  `playerJustMoved`, with the single terminal state produced by rollout.
* `random.choice(xs)` draws from a stream of injected naturals: the next
  stream element `r` selects `xs[r % len(xs)]`.  The stream is a `List ℕ`
  read head-first (an exhausted stream keeps yielding `0`).
* The unbounded `while` loops of the source (the selection descent and the
  rollout loop) take explicit fuel; exhausted fuel yields `none`, and every
  theorem about a completed search is conditioned on the search returning
  `some` result, exactly as the Python call is conditioned on terminating.
-/

namespace MCTS

/-- Capability contract a searchable game must satisfy (`GameState`, mtcs.py
lines 23-57): legal moves, move application, identifier of the player who just
moved, and terminal result from a given player's viewpoint.  `getResult p s`
embeds `s.GetResult(p)`; the source asserts it is only called on terminal
states. -/
structure Game (S : Type) (M : Type) where
  getMoves : S → List M
  doMove : M → S → S
  playerJustMoved : S → ℕ
  getResult : ℕ → S → ℚ

/-- Search-tree node (`class Node`, mtcs.py lines 444-455): the move that led
here (`none` for the root), the insertion-ordered children, cumulative score
`wins`, visit counter, the moves not yet expanded, and the just-moved player
recorded from the owning state at creation.  The `parentNode` back-reference
of the source is not stored; the backpropagation walk it enables is performed
on the return path of the recursive iteration instead. -/
inductive Node (M : Type) : Type where
  | mk (move : Option M) (childNodes : List (Node M)) (wins : ℚ) (visits : ℕ)
       (untriedMoves : List M) (playerJustMoved : ℕ) : Node M

variable {S M : Type}

def Node.move : Node M → Option M
  | .mk mv _ _ _ _ _ => mv

def Node.childNodes : Node M → List (Node M)
  | .mk _ ch _ _ _ _ => ch

def Node.wins : Node M → ℚ
  | .mk _ _ w _ _ _ => w

def Node.visits : Node M → ℕ
  | .mk _ _ _ v _ _ => v

def Node.untriedMoves : Node M → List M
  | .mk _ _ _ _ u _ => u

def Node.playerJustMoved : Node M → ℕ
  | .mk _ _ _ _ _ p => p

@[simp] theorem Node.move_mk (mv : Option M) (ch w v u p) :
    (Node.mk mv ch w v u p).move = mv := rfl

@[simp] theorem Node.childNodes_mk (mv : Option M) (ch w v u p) :
    (Node.mk mv ch w v u p).childNodes = ch := rfl

@[simp] theorem Node.wins_mk (mv : Option M) (ch w v u p) :
    (Node.mk mv ch w v u p).wins = w := rfl

@[simp] theorem Node.visits_mk (mv : Option M) (ch w v u p) :
    (Node.mk mv ch w v u p).visits = v := rfl

@[simp] theorem Node.untriedMoves_mk (mv : Option M) (ch w v u p) :
    (Node.mk mv ch w v u p).untriedMoves = u := rfl

@[simp] theorem Node.playerJustMoved_mk (mv : Option M) (ch w v u p) :
    (Node.mk mv ch w v u p).playerJustMoved = p := rfl

/-- Node construction from a state (`Node.__init__`, mtcs.py lines 448-455):
no children, zero statistics, `untriedMoves` seeded with the legal moves of
the owning state, `playerJustMoved` copied from the state. -/
def Node.mkFromState (move : Option M) (g : Game S M) (s : S) : Node M :=
  .mk move [] 0 0 (g.getMoves s) (g.playerJustMoved s)

/-- Statistics update (`Node.Update`, mtcs.py lines 474-478): one more visit,
`result` more wins. -/
def Node.update (r : ℚ) : Node M → Node M
  | .mk mv ch w v u p => .mk mv ch (w + r) (v + 1) u p

/-- Replacement of the `i`-th child by its updated version.  The source
mutates the selected child in place through the shared reference; the
functional embedding writes the recursively updated child back at the same
position. -/
def Node.setChild : Node M → ℕ → Node M → Node M
  | .mk mv ch w v u p, i, c => .mk mv (ch.set i c) w v u p

/-- Child attachment (`Node.AddChild`, mtcs.py lines 465-472): remove the
expanded move from `untriedMoves` and append the new child.  The child node
passed in is the one built from the post-move state (the source builds it
inside `AddChild`; backpropagation then updates the same object in place, so
the embedding appends the already-updated child). -/
def Node.addChildNode [DecidableEq M] : Node M → M → Node M → Node M
  | .mk mv ch w v u p, m, c => .mk mv (ch ++ [c]) w v (u.erase m) p

/-- Last maximal element: fold step keeping the later element on ties. -/
def pickLastMaxAux {α β : Type} [LinearOrder β] (key : α → β) :
    List α → ℕ → ℕ × α → ℕ × α
  | [], _, best => best
  | a :: l, i, best =>
      pickLastMaxAux key l (i + 1) (if key best.2 ≤ key a then (i, a) else best)

/-- Embedding of Python's `sorted(l, key)[-1]` together with the position of
the returned element in `l`: `sorted` is an ascending stable sort, so index
`-1` holds the element with the maximal key occurring latest in `l`; on an
empty list `[-1]` raises `IndexError`, embedded as `none`. -/
def pickLastMax {α β : Type} [LinearOrder β] (key : α → β) : List α → Option (ℕ × α)
  | [] => none
  | a :: l => some (pickLastMaxAux key l 1 (0, a))

/-- UCB1 key of a child (the lambda on mtcs.py line 462):
`c.wins/c.visits + sqrt(2*log(self.visits)/c.visits)` where `self` is the
parent.  No further exploration coefficient is applied. -/
noncomputable def ucbVal (parentVisits : ℕ) (c : Node M) : ℝ :=
  (c.wins : ℝ) / (c.visits : ℝ) +
    Real.sqrt (2 * Real.log (parentVisits : ℝ) / (c.visits : ℝ))

/-- Child selection (`Node.UCTSelectChild`, mtcs.py lines 457-463):
`sorted(self.childNodes, key = ucb1)[-1]`, returned together with the child's
position so the functional tree update can write the result back. -/
noncomputable def Node.UCTSelectChild (node : Node M) : Option (ℕ × Node M) :=
  pickLastMax (ucbVal node.visits) node.childNodes

/-- Rollout loop (mtcs.py lines 534-535): while the state has legal moves,
apply a randomly chosen one.  Consumes one stream element per move; `none`
when the fuel runs out before reaching a terminal state. -/
def rollout (g : Game S M) : ℕ → List ℕ → S → Option (S × List ℕ)
  | 0, rng, s =>
      match g.getMoves s with
      | [] => some (s, rng)
      | _ :: _ => none
  | fuel + 1, rng, s =>
      match g.getMoves s with
      | [] => some (s, rng)
      | u :: us =>
          rollout g fuel rng.tail
            (g.doMove ((u :: us).getD (rng.headD 0 % (u :: us).length) u) s)

/-- One four-phase iteration of the `for i in range(itermax)` loop body
(mtcs.py lines 509-543), operating on the subtree rooted at `node` with the
working state `state`:

* Select (lines 517-519): while the node is fully expanded and non-terminal,
  descend into `UCTSelectChild()` applying its move — here one recursive call
  per descent step, on `selFuel` fuel;
* Expand (lines 525-528): if untried moves remain, apply a random one and add
  the child;
* Rollout (lines 534-535): random playout to a terminal state;
* Backpropagate (lines 541-543): on the return path, update every node on the
  descent path with the terminal result from the viewpoint of its own
  `playerJustMoved`.

Returns the updated subtree, the terminal state of this iteration, and the
remaining random stream. -/
noncomputable def iter (g : Game S M) [DecidableEq M] (rolloutFuel : ℕ) :
    ℕ → List ℕ → Node M → S → Option (Node M × S × List ℕ)
  | 0, _, _, _ => none
  | selFuel + 1, rng, node, state =>
      match node.untriedMoves, node.childNodes with
      | [], _ :: _ =>
          -- Select: node is fully expanded and non-terminal
          match node.UCTSelectChild with
          | none => none
          | some (i, c) =>
              match c.move with
              | none => none
              | some m =>
                  match iter g rolloutFuel selFuel rng c (g.doMove m state) with
                  | none => none
                  | some (c', sT, rng') =>
                      some ((node.setChild i c').update
                              (g.getResult node.playerJustMoved sT), sT, rng')
      | [], [] =>
          -- Terminal node: no expansion; rollout exits at once on a terminal
          -- state, then backpropagation updates this node
          match rollout g rolloutFuel rng state with
          | none => none
          | some (sT, rng') =>
              some (node.update (g.getResult node.playerJustMoved sT), sT, rng')
      | u :: us, _ =>
          -- Expand: pick a random untried move, apply it, add the child,
          -- then rollout and backpropagate through child and node
          let m := (u :: us).getD (rng.headD 0 % (u :: us).length) u
          let s1 := g.doMove m state
          match rollout g rolloutFuel rng.tail s1 with
          | none => none
          | some (sT, rng') =>
              let child := Node.mkFromState (some m) g s1
              some ((node.addChildNode m
                      (child.update (g.getResult child.playerJustMoved sT))).update
                        (g.getResult node.playerJustMoved sT), sT, rng')

/-- The `for i in range(itermax)` driver loop of `UCT` (mtcs.py lines
509-543): run `iter` the given number of times, each time on a fresh copy of
the root state (cloning is the identity on immutable values). -/
noncomputable def searchLoop (g : Game S M) [DecidableEq M]
    (selFuel rolloutFuel : ℕ) :
    ℕ → List ℕ → Node M → S → Option (Node M × List ℕ)
  | 0, rng, node, _ => some (node, rng)
  | k + 1, rng, node, s =>
      match iter g rolloutFuel selFuel rng node s with
      | none => none
      | some (node', _, rng') => searchLoop g selFuel rolloutFuel k rng' node' s

/-- The search driver (`UCT`, mtcs.py lines 502-553): build the root node
from the root state, run `itermax` iterations, then return the move of
`sorted(rootnode.childNodes, key = lambda c: c.visits)[-1]` — the
most-visited direct child of the root.  The `[-1]` indexing of an empty child
list raises `IndexError`, embedded as `none`. -/
noncomputable def UCT (g : Game S M) [DecidableEq M] (selFuel rolloutFuel : ℕ)
    (rng : List ℕ) (rootstate : S) (itermax : ℕ) : Option M :=
  match searchLoop g selFuel rolloutFuel itermax rng
      (Node.mkFromState none g rootstate) rootstate with
  | none => none
  | some (rootnode, _) =>
      match pickLastMax (fun c => c.visits) rootnode.childNodes with
      | none => none
      | some (_, c) => c.move

/-- Nim position (`class NimState`, mtcs.py lines 60-102): a chip count and
the player who just moved. -/
structure NimSt where
  chips : ℕ
  playerJustMoved : ℕ
deriving DecidableEq

/-- The Nim game operations (mtcs.py lines 60-98): moves are
`range(1, min([4, chips + 1]))`, a move removes that many chips and flips the
player, and the terminal result for `playerjm` is `1.0` if `playerjm` took
the last chip and `0.0` otherwise (`GetResult` asserts `chips == 0`). -/
def nimGame : Game NimSt ℕ where
  getMoves s := List.range' 1 (min 4 (s.chips + 1) - 1)
  doMove m s := ⟨s.chips - m, 3 - s.playerJustMoved⟩
  playerJustMoved s := s.playerJustMoved
  getResult p s := if s.playerJustMoved = p then 1 else 0

/-! Concrete reference run used by the witnesses: Nim with 2 chips, search
budget 2, random stream `[0, 0, 0]`.  Iteration 1 expands the move `1`
(rollout: the opponent takes the last chip), iteration 2 expands the move `2`
(taking both chips at once, an immediate win for the expanding player).  Both
root children end with 1 visit; the driver returns the move of the
last-appended child, `2`.  The `wins` values are recorded as the literal sums
accumulated by `Node.update`. -/

def nimChild1 : Node ℕ := .mk (some 1) [] ((0 : ℚ) + 0) 1 [1] 1

def nimChild2 : Node ℕ := .mk (some 2) [] ((0 : ℚ) + 1) 1 [] 1

def nimFinalTree : Node ℕ := .mk none [nimChild1, nimChild2] ((0 : ℚ) + 1 + 0) 2 [] 2

/-- Concrete fully-expanded node with two children of identical statistics,
used to settle the tie-breaking claims: children appended in the order
`tieChildA`, `tieChildB`. -/
def tieChildA : Node ℕ := .mk (some 1) [] 1 2 [] 1

def tieChildB : Node ℕ := .mk (some 2) [] 1 2 [] 1

def tieNode : Node ℕ := .mk none [tieChildA, tieChildB] 1 2 [] 2

/-- Occurrence of a node inside a tree (the tree's own root included):
`Subnode u t` holds when `u` is reachable from `t` through child links. -/
inductive Subnode : Node M → Node M → Prop
  | refl (t : Node M) : Subnode t t
  | child {u c t : Node M} : c ∈ t.childNodes → Subnode u c → Subnode u t

/-- Visit-count positivity invariant of reachable trees: every child anywhere
in the tree has been visited at least once (it was updated by the
backpropagation of the iteration that created it), and any node that has
acquired a child has been visited at least once itself (that backpropagation
passed through it). -/
inductive VisitsInv : Node M → Prop
  | mk {t : Node M} : (t.childNodes ≠ [] → 1 ≤ t.visits) →
      (∀ c ∈ t.childNodes, 1 ≤ c.visits) →
      (∀ c ∈ t.childNodes, VisitsInv c) → VisitsInv t

/-- Score-bounds invariant of reachable trees: every node's cumulative score
lies between `0` and its visit count, provided every game result lies in
`[0, 1]`. -/
inductive WinsInv : Node M → Prop
  | mk {t : Node M} : 0 ≤ t.wins → t.wins ≤ (t.visits : ℚ) →
      (∀ c ∈ t.childNodes, WinsInv c) → WinsInv t

/-- Correspondence invariant between a tree and the states its nodes own: at
every node, the untried moves together with the moves of the materialized
children form a permutation of the legal moves of the state that created the
node, and each child corresponds to the state after applying its move.  The
state is not stored in the node (only `playerJustMoved` is, mtcs.py line 455);
the invariant reconstructs it along the path from the root. -/
inductive TreeOK (g : Game S M) : S → Node M → Prop
  | mk {s : S} {t : Node M} :
      (t.untriedMoves ++ t.childNodes.filterMap Node.move).Perm (g.getMoves s) →
      (∀ c ∈ t.childNodes, c.move ≠ none) →
      (∀ c ∈ t.childNodes, ∀ m, c.move = some m → TreeOK g (g.doMove m s) c) →
      TreeOK g s t

/-! Lemmas about `pickLastMax`, the embedding of `sorted(l, key)[-1]`. -/

theorem pickLastMaxAux_best_or_mem {α β : Type} [LinearOrder β] (key : α → β) :
    ∀ (l : List α) (i : ℕ) (best : ℕ × α),
      pickLastMaxAux key l i best = best ∨ (pickLastMaxAux key l i best).2 ∈ l
  | [], _, _ => Or.inl rfl
  | a :: l, i, best => by
    rw [pickLastMaxAux]
    rcases pickLastMaxAux_best_or_mem key l (i + 1)
        (if key best.2 ≤ key a then (i, a) else best) with h | h
    · rw [h]
      split
      · exact Or.inr (List.mem_cons_self a l)
      · exact Or.inl rfl
    · exact Or.inr (List.mem_cons_of_mem a h)

theorem pickLastMaxAux_le {α β : Type} [LinearOrder β] (key : α → β) :
    ∀ (l : List α) (i : ℕ) (best : ℕ × α),
      key best.2 ≤ key (pickLastMaxAux key l i best).2 ∧
        ∀ b ∈ l, key b ≤ key (pickLastMaxAux key l i best).2
  | [], _, _ => ⟨le_refl _, by simp⟩
  | a :: l, i, best => by
    rw [pickLastMaxAux]
    obtain ⟨h1, h2⟩ := pickLastMaxAux_le key l (i + 1)
        (if key best.2 ≤ key a then (i, a) else best)
    constructor
    · refine le_trans ?_ h1
      split
      · assumption
      · exact le_refl _
    · intro b hb
      rcases List.mem_cons.mp hb with rfl | hb
      · refine le_trans ?_ h1
        split
        · exact le_refl _
        · exact le_of_not_le (by assumption)
      · exact h2 b hb

theorem pickLastMaxAux_keep {α β : Type} [LinearOrder β] (key : α → β) :
    ∀ (l : List α) (i : ℕ) (best : ℕ × α),
      (∀ b ∈ l, key b < key best.2) → pickLastMaxAux key l i best = best
  | [], _, _, _ => rfl
  | a :: l, i, best, h => by
    rw [pickLastMaxAux, if_neg (not_le.mpr (h a (List.mem_cons_self a l)))]
    exact pickLastMaxAux_keep key l (i + 1) best
      (fun b hb => h b (List.mem_cons_of_mem a hb))

theorem pickLastMaxAux_last {α β : Type} [LinearOrder β] (key : α → β) (c : α)
    (l₂ : List α) (h₂ : ∀ b ∈ l₂, key b < key c) :
    ∀ (l₁ : List α) (i : ℕ) (best : ℕ × α), key best.2 ≤ key c →
      (∀ b ∈ l₁, key b ≤ key c) →
      pickLastMaxAux key (l₁ ++ c :: l₂) i best = (i + l₁.length, c)
  | [], i, best, hbest, _ => by
    rw [List.nil_append, pickLastMaxAux, if_pos hbest]
    rw [pickLastMaxAux_keep key l₂ (i + 1) (i, c) h₂]
    simp
  | x :: l₁, i, best, hbest, h₁ => by
    rw [List.cons_append, pickLastMaxAux]
    have hx : key (if key best.2 ≤ key x then (i, x) else best).2 ≤ key c := by
      split
      · exact h₁ x (List.mem_cons_self x l₁)
      · exact hbest
    rw [pickLastMaxAux_last key c l₂ h₂ l₁ (i + 1) _ hx
      (fun b hb => h₁ b (List.mem_cons_of_mem x hb))]
    simp [Nat.add_comm, Nat.add_assoc, Nat.add_left_comm]

theorem pickLastMaxAux_idx {α β : Type} [LinearOrder β] (key : α → β) :
    ∀ (l : List α) (i : ℕ) (best : ℕ × α),
      pickLastMaxAux key l i best = best ∨
        ∃ j, ∃ h : j < l.length, pickLastMaxAux key l i best = (i + j, l[j])
  | [], _, _ => Or.inl rfl
  | a :: l, i, best => by
    rw [pickLastMaxAux]
    rcases pickLastMaxAux_idx key l (i + 1)
        (if key best.2 ≤ key a then (i, a) else best) with h | ⟨j, hj, h⟩
    · rw [h]
      split
      · refine Or.inr ⟨0, by simp, ?_⟩
        simp
      · exact Or.inl rfl
    · refine Or.inr ⟨j + 1, by simpa using hj, ?_⟩
      rw [h]
      simp [Nat.add_comm, Nat.add_assoc, Nat.add_left_comm]

theorem pickLastMax_mem {α β : Type} [LinearOrder β] {key : α → β} {l : List α}
    {p : ℕ × α} (h : pickLastMax key l = some p) : p.2 ∈ l := by
  cases l with
  | nil => exact absurd h (by simp [pickLastMax])
  | cons a l =>
    rw [pickLastMax, Option.some_inj] at h
    rcases pickLastMaxAux_best_or_mem key l 1 (0, a) with h' | h'
    · rw [h'] at h
      rw [← h]
      exact List.mem_cons_self a l
    · rw [h] at h'
      exact List.mem_cons_of_mem a h'

theorem pickLastMax_le {α β : Type} [LinearOrder β] {key : α → β} {l : List α}
    {p : ℕ × α} (h : pickLastMax key l = some p) : ∀ b ∈ l, key b ≤ key p.2 := by
  cases l with
  | nil => exact absurd h (by simp [pickLastMax])
  | cons a l =>
    rw [pickLastMax, Option.some_inj] at h
    obtain ⟨h1, h2⟩ := pickLastMaxAux_le key l 1 (0, a)
    intro b hb
    rcases List.mem_cons.mp hb with rfl | hb
    · rw [← h]; exact h1
    · rw [← h]; exact h2 b hb

theorem pickLastMax_idx {α β : Type} [LinearOrder β] {key : α → β} {l : List α}
    {p : ℕ × α} (h : pickLastMax key l = some p) :
    ∃ hlt : p.1 < l.length, l[p.1] = p.2 := by
  cases l with
  | nil => exact absurd h (by simp [pickLastMax])
  | cons a l =>
    rw [pickLastMax, Option.some_inj] at h
    rcases pickLastMaxAux_idx key l 1 (0, a) with h' | ⟨j, hj, h'⟩
    · rw [h'] at h
      rw [← h]
      exact ⟨by simp, rfl⟩
    · rw [h'] at h
      rw [← h]
      refine ⟨by simp; omega, ?_⟩
      simp [Nat.add_comm 1 j]

theorem pickLastMax_isSome {α β : Type} [LinearOrder β] (key : α → β) (a : α)
    (l : List α) : ∃ p, pickLastMax key (a :: l) = some p :=
  ⟨pickLastMaxAux key l 1 (0, a), rfl⟩

/-- Characterization of the tie-breaking of `sorted(l, key)[-1]`: if every
element before `c` has key at most `key c` and every element after `c` has key
strictly below `key c`, the last maximal element is `c`, at position
`l₁.length`. -/
theorem pickLastMax_last {α β : Type} [LinearOrder β] {key : α → β}
    {l₁ l₂ : List α} {c : α} (h₁ : ∀ b ∈ l₁, key b ≤ key c)
    (h₂ : ∀ b ∈ l₂, key b < key c) :
    pickLastMax key (l₁ ++ c :: l₂) = some (l₁.length, c) := by
  cases l₁ with
  | nil =>
    rw [List.nil_append, pickLastMax,
      pickLastMaxAux_keep key l₂ 1 (0, c) h₂]
    rfl
  | cons x l₁ =>
    rw [List.cons_append, pickLastMax,
      pickLastMaxAux_last key c l₂ h₂ l₁ 1 (0, x)
        (h₁ x (List.mem_cons_self x l₁))
        (fun b hb => h₁ b (List.mem_cons_of_mem x hb))]
    simp [Nat.add_comm]

@[simp] theorem Node.update_move (r : ℚ) (t : Node M) : (t.update r).move = t.move := by
  cases t; rfl

@[simp] theorem Node.update_childNodes (r : ℚ) (t : Node M) :
    (t.update r).childNodes = t.childNodes := by
  cases t; rfl

@[simp] theorem Node.update_wins (r : ℚ) (t : Node M) : (t.update r).wins = t.wins + r := by
  cases t; rfl

@[simp] theorem Node.update_visits (r : ℚ) (t : Node M) :
    (t.update r).visits = t.visits + 1 := by
  cases t; rfl

@[simp] theorem Node.update_untriedMoves (r : ℚ) (t : Node M) :
    (t.update r).untriedMoves = t.untriedMoves := by
  cases t; rfl

@[simp] theorem Node.update_playerJustMoved (r : ℚ) (t : Node M) :
    (t.update r).playerJustMoved = t.playerJustMoved := by
  cases t; rfl

@[simp] theorem Node.setChild_move (t : Node M) (i : ℕ) (c : Node M) :
    (t.setChild i c).move = t.move := by
  cases t; rfl

@[simp] theorem Node.setChild_childNodes (t : Node M) (i : ℕ) (c : Node M) :
    (t.setChild i c).childNodes = t.childNodes.set i c := by
  cases t; rfl

@[simp] theorem Node.setChild_wins (t : Node M) (i : ℕ) (c : Node M) :
    (t.setChild i c).wins = t.wins := by
  cases t; rfl

@[simp] theorem Node.setChild_visits (t : Node M) (i : ℕ) (c : Node M) :
    (t.setChild i c).visits = t.visits := by
  cases t; rfl

@[simp] theorem Node.setChild_untriedMoves (t : Node M) (i : ℕ) (c : Node M) :
    (t.setChild i c).untriedMoves = t.untriedMoves := by
  cases t; rfl

@[simp] theorem Node.setChild_playerJustMoved (t : Node M) (i : ℕ) (c : Node M) :
    (t.setChild i c).playerJustMoved = t.playerJustMoved := by
  cases t; rfl

@[simp] theorem Node.addChildNode_move [DecidableEq M] (t : Node M) (m : M) (c : Node M) :
    (t.addChildNode m c).move = t.move := by
  cases t; rfl

@[simp] theorem Node.addChildNode_childNodes [DecidableEq M] (t : Node M) (m : M)
    (c : Node M) : (t.addChildNode m c).childNodes = t.childNodes ++ [c] := by
  cases t; rfl

@[simp] theorem Node.addChildNode_wins [DecidableEq M] (t : Node M) (m : M) (c : Node M) :
    (t.addChildNode m c).wins = t.wins := by
  cases t; rfl

@[simp] theorem Node.addChildNode_visits [DecidableEq M] (t : Node M) (m : M)
    (c : Node M) : (t.addChildNode m c).visits = t.visits := by
  cases t; rfl

@[simp] theorem Node.addChildNode_untriedMoves [DecidableEq M] (t : Node M) (m : M)
    (c : Node M) : (t.addChildNode m c).untriedMoves = t.untriedMoves.erase m := by
  cases t; rfl

@[simp] theorem Node.addChildNode_playerJustMoved [DecidableEq M] (t : Node M) (m : M)
    (c : Node M) : (t.addChildNode m c).playerJustMoved = t.playerJustMoved := by
  cases t; rfl

@[simp] theorem Node.mkFromState_move (mv : Option M) (g : Game S M) (s : S) :
    (Node.mkFromState mv g s).move = mv := rfl

@[simp] theorem Node.mkFromState_childNodes (mv : Option M) (g : Game S M) (s : S) :
    (Node.mkFromState mv g s).childNodes = [] := rfl

@[simp] theorem Node.mkFromState_wins (mv : Option M) (g : Game S M) (s : S) :
    (Node.mkFromState mv g s).wins = 0 := rfl

@[simp] theorem Node.mkFromState_visits (mv : Option M) (g : Game S M) (s : S) :
    (Node.mkFromState mv g s).visits = 0 := rfl

@[simp] theorem Node.mkFromState_untriedMoves (mv : Option M) (g : Game S M) (s : S) :
    (Node.mkFromState mv g s).untriedMoves = g.getMoves s := rfl

@[simp] theorem Node.mkFromState_playerJustMoved (mv : Option M) (g : Game S M) (s : S) :
    (Node.mkFromState mv g s).playerJustMoved = g.playerJustMoved s := rfl

/-- Rollout produces a terminal state, and produces it purely by repeatedly
applying legal moves to the working state: the tree is never consulted nor
changed (the embedding's `rollout` takes no tree argument at all, mirroring
that mtcs.py lines 534-535 touch only `state`). -/
theorem rollout_terminal (g : Game S M) :
    ∀ (fuel : ℕ) (rng : List ℕ) (s s' : S) (rng' : List ℕ),
      rollout g fuel rng s = some (s', rng') →
      g.getMoves s' = [] ∧
        ∃ ms : List M, s' = ms.foldl (fun st m => g.doMove m st) s
  | 0, rng, s, s', rng', h => by
    rw [rollout] at h
    split at h
    · simp only [Option.some.injEq, Prod.mk.injEq] at h
      obtain ⟨h1, -⟩ := h
      subst h1
      exact ⟨by assumption, [], rfl⟩
    · exact absurd h (by simp)
  | fuel + 1, rng, s, s', rng', h => by
    rw [rollout] at h
    split at h
    · simp only [Option.some.injEq, Prod.mk.injEq] at h
      obtain ⟨h1, -⟩ := h
      subst h1
      exact ⟨by assumption, [], rfl⟩
    · rename_i u us heq
      obtain ⟨h1, ms, h2⟩ := rollout_terminal g fuel rng.tail _ s' rng' h
      exact ⟨h1, ((u :: us).getD (rng.headD 0 % (u :: us).length) u) :: ms, h2⟩

theorem pickLastMaxAux_decomp {α β : Type} [LinearOrder β] (key : α → β) :
    ∀ (l : List α) (i : ℕ) (best : ℕ × α),
      (pickLastMaxAux key l i best = best ∧ ∀ b ∈ l, key b < key best.2) ∨
        ∃ l₁ b l₂, l = l₁ ++ b :: l₂ ∧
          pickLastMaxAux key l i best = (i + l₁.length, b) ∧
          key best.2 ≤ key b ∧ (∀ x ∈ l₁, key x ≤ key b) ∧
          ∀ x ∈ l₂, key x < key b
  | [], _, _ => Or.inl ⟨rfl, by simp⟩
  | a :: l, i, best => by
    rw [pickLastMaxAux]
    by_cases hle : key best.2 ≤ key a
    · rw [if_pos hle]
      rcases pickLastMaxAux_decomp key l (i + 1) (i, a) with ⟨heq, hstrict⟩ |
        ⟨l₁, b, l₂, hdec, heq, hb, h₁, h₂⟩
      · refine Or.inr ⟨[], a, l, rfl, ?_, hle, by simp, hstrict⟩
        rw [heq]
        simp
      · refine Or.inr ⟨a :: l₁, b, l₂, by rw [hdec]; rfl, ?_, le_trans hle hb, ?_, h₂⟩
        · rw [heq]
          simp only [List.length_cons]
          congr 1
          omega
        · intro x hx
          rcases List.mem_cons.mp hx with rfl | hx'
          · exact hb
          · exact h₁ x hx'
    · rw [if_neg hle]
      rcases pickLastMaxAux_decomp key l (i + 1) best with ⟨heq, hstrict⟩ |
        ⟨l₁, b, l₂, hdec, heq, hb, h₁, h₂⟩
      · refine Or.inl ⟨heq, ?_⟩
        intro x hx
        rcases List.mem_cons.mp hx with rfl | hx'
        · exact not_le.mp hle
        · exact hstrict x hx'
      · refine Or.inr ⟨a :: l₁, b, l₂, by rw [hdec]; rfl, ?_, hb, ?_, h₂⟩
        · rw [heq]
          simp only [List.length_cons]
          congr 1
          omega
        · intro x hx
          rcases List.mem_cons.mp hx with rfl | hx'
          · exact le_of_lt (lt_of_lt_of_le (not_le.mp hle) hb)
          · exact h₁ x hx'

/-- Converse characterization of `pickLastMax`: the chosen element splits the
list into earlier elements with keys at most its own and later elements with
keys strictly below it, at position equal to the prefix length. -/
theorem pickLastMax_decomp {α β : Type} [LinearOrder β] {key : α → β}
    {l : List α} {i : ℕ} {a : α} (h : pickLastMax key l = some (i, a)) :
    ∃ l₁ l₂, l = l₁ ++ a :: l₂ ∧ l₁.length = i ∧
      (∀ b ∈ l₁, key b ≤ key a) ∧ ∀ b ∈ l₂, key b < key a := by
  cases l with
  | nil => exact absurd h (by simp [pickLastMax])
  | cons x xs =>
    rw [pickLastMax, Option.some_inj] at h
    rcases pickLastMaxAux_decomp key xs 1 (0, x) with ⟨heq, hstrict⟩ |
      ⟨l₁, b, l₂, hdec, heq, hb, h₁, h₂⟩
    · rw [heq] at h
      obtain ⟨rfl, rfl⟩ : 0 = i ∧ x = a := by simpa [Prod.ext_iff] using h
      exact ⟨[], xs, rfl, rfl, by simp, hstrict⟩
    · rw [heq] at h
      obtain ⟨hi, rfl⟩ : 1 + l₁.length = i ∧ b = a := by simpa [Prod.ext_iff] using h
      refine ⟨x :: l₁, l₂, by rw [hdec]; rfl, by simp; omega, ?_, h₂⟩
      intro y hy
      rcases List.mem_cons.mp hy with rfl | hy'
      · exact hb
      · exact h₁ y hy'

/-- Justification of the `sorted(l, key)[-1]` embedding: the element picked by
`pickLastMax` is exactly the last element of a stable ascending merge sort of
the list by the key.  In particular ties at the maximal key are broken
towards the latest-occurring element, as in Python's stable `sorted`. -/
theorem pickLastMax_eq_mergeSort_getLast {α β : Type} [LinearOrder β]
    (key : α → β) (l : List α) :
    (l.mergeSort (fun a b => decide (key a ≤ key b))).getLast? =
      (pickLastMax key l).map Prod.snd := by
  have htrans : ∀ (a b c : α), decide (key a ≤ key b) = true →
      decide (key b ≤ key c) = true → decide (key a ≤ key c) = true := by
    intro a b c hab hbc
    rw [decide_eq_true_eq] at hab hbc ⊢
    exact le_trans hab hbc
  have htotal : ∀ (a b : α),
      (decide (key a ≤ key b) || decide (key b ≤ key a)) = true := by
    intro a b
    rw [Bool.or_eq_true, decide_eq_true_eq, decide_eq_true_eq]
    exact le_total (key a) (key b)
  cases l with
  | nil => simp [List.mergeSort_nil, pickLastMax]
  | cons x xs =>
    have hp : pickLastMax key (x :: xs) =
        some ((pickLastMaxAux key xs 1 (0, x)).1,
          (pickLastMaxAux key xs 1 (0, x)).2) := by
      rw [pickLastMax]
    obtain ⟨l₁, l₂, hdec, hlen, h₁, h₂⟩ := pickLastMax_decomp hp
    set a := (pickLastMaxAux key xs 1 (0, x)).2 with ha
    have hmax : ∀ y ∈ x :: xs, key y ≤ key a := by
      rw [hdec]
      intro y hy
      rcases List.mem_append.mp hy with hy' | hy'
      · exact h₁ y hy'
      · rcases List.mem_cons.mp hy' with rfl | hy''
        · exact le_refl _
        · exact le_of_lt (h₂ y hy'')
    have hperm := List.mergeSort_perm (x :: xs) (fun a b => decide (key a ≤ key b))
    have hLne : (x :: xs).mergeSort (fun a b => decide (key a ≤ key b)) ≠ [] := by
      intro hnil
      have hl := hperm.length_eq
      rw [hnil] at hl
      simp at hl
    set L := (x :: xs).mergeSort (fun a b => decide (key a ≤ key b)) with hL
    set b := L.getLast hLne with hbdef
    have hbL : L.getLast? = some b := List.getLast?_eq_getLast L hLne
    have hsplit : L.dropLast ++ [b] = L := List.dropLast_append_getLast hLne
    have hsorted := List.sorted_mergeSort htrans htotal (x :: xs)
    have hbmem : b ∈ x :: xs := hperm.subset (List.getLast_mem hLne)
    have hab : key a ≤ key b := by
      have hamem : a ∈ L := hperm.mem_iff.mpr (by
        rw [hdec]
        exact List.mem_append.mpr (Or.inr (List.mem_cons_self a l₂)))
      rw [← hsplit] at hamem
      rcases List.mem_append.mp hamem with hy | hy
      · have hpair := List.pairwise_append.mp (by rw [hsplit]; exact hsorted)
        have := hpair.2.2 a hy b (List.mem_singleton_self b)
        rwa [decide_eq_true_eq] at this
      · rw [List.mem_singleton.mp hy]
    -- the filter keeping exactly the maximal-key elements
    set p : α → Bool := fun y => decide (key a ≤ key y) with hpdef
    have hpa : p a = true := by
      rw [hpdef]
      simp
    have hfl₂ : l₂.filter p = [] := by
      rw [List.filter_eq_nil_iff]
      intro y hy
      rw [hpdef, decide_eq_true_eq]
      exact not_le.mpr (h₂ y hy)
    have hfiltl : (x :: xs).filter p = l₁.filter p ++ [a] := by
      rw [hdec, List.filter_append, List.filter_cons_of_pos hpa, hfl₂]
    have hSlast : ((x :: xs).filter p).getLast? = some a := by
      rw [hfiltl, List.getLast?_concat]
    have hSmem : ∀ y ∈ (x :: xs).filter p, key y = key a := by
      intro y hy
      rw [List.mem_filter] at hy
      have h1 := hmax y hy.1
      have h2 : key a ≤ key y := by
        have := hy.2
        rwa [hpdef, decide_eq_true_eq] at this
      exact le_antisymm h1 h2
    have hSpair : ((x :: xs).filter p).Pairwise
        (fun u v => decide (key u ≤ key v) = true) := by
      refine List.pairwise_of_forall_mem_list ?_
      intro u hu v hv
      rw [decide_eq_true_eq, hSmem u hu, hSmem v hv]
    have hstab : ((x :: xs).filter p).Sublist L :=
      List.sublist_mergeSort htrans htotal hSpair (List.filter_sublist (x :: xs))
    have hSfilter : ((x :: xs).filter p).filter p = (x :: xs).filter p := by
      rw [List.filter_eq_self]
      intro y hy
      exact (List.mem_filter.mp hy).2
    have hsubfilter : ((x :: xs).filter p).Sublist (L.filter p) := by
      have := List.Sublist.filter p hstab
      rwa [hSfilter] at this
    have hlenf : ((x :: xs).filter p).length = (L.filter p).length :=
      ((hperm.filter p).length_eq).symm
    have hSeq : (x :: xs).filter p = L.filter p :=
      hsubfilter.eq_of_length hlenf
    have hpb : p b = true := by
      rw [hpdef, decide_eq_true_eq]
      exact hab
    have hLlast : (L.filter p).getLast? = some b := by
      rw [← hsplit, List.filter_append, List.filter_cons_of_pos hpb,
        List.filter_nil, List.getLast?_concat]
    have hba : b = a := by
      have h1 : some b = some a := by
        rw [← hLlast, ← hSeq, hSlast]
      exact Option.some_inj.mp h1
    rw [hbL, hba, hp]
    rfl

/-! Lemmas about a single four-phase iteration and the driver loop. -/

theorem iter_visits (g : Game S M) [DecidableEq M] (rf : ℕ) (sf : ℕ)
    (rng : List ℕ) (node : Node M) (s : S) (t' : Node M) (sT : S)
    (rng' : List ℕ) (h : iter g rf sf rng node s = some (t', sT, rng')) :
    t'.visits = node.visits + 1 := by
  match sf with
  | 0 => simp [iter] at h
  | sf + 1 =>
    rw [iter] at h
    split at h
    · -- Select branch
      split at h
      · exact absurd h (by simp)
      · split at h
        · exact absurd h (by simp)
        · split at h
          · exact absurd h (by simp)
          · simp only [Option.some.injEq, Prod.mk.injEq] at h
            obtain ⟨h1, -, -⟩ := h
            subst h1
            cases node with
            | mk mv ch w v u p => simp [Node.update, Node.setChild]
    · -- Terminal branch
      split at h
      · exact absurd h (by simp)
      · simp only [Option.some.injEq, Prod.mk.injEq] at h
        obtain ⟨h1, -, -⟩ := h
        subst h1
        cases node with
        | mk mv ch w v u p => simp [Node.update]
    · -- Expand branch
      simp only [] at h
      split at h
      · exact absurd h (by simp)
      · simp only [Option.some.injEq, Prod.mk.injEq] at h
        obtain ⟨h1, -, -⟩ := h
        subst h1
        cases node with
        | mk mv ch w v u p => simp [Node.update, Node.addChildNode]

theorem iter_move_pjm (g : Game S M) [DecidableEq M] (rf : ℕ) (sf : ℕ)
    (rng : List ℕ) (node : Node M) (s : S) (t' : Node M) (sT : S)
    (rng' : List ℕ) (h : iter g rf sf rng node s = some (t', sT, rng')) :
    t'.move = node.move ∧ t'.playerJustMoved = node.playerJustMoved := by
  match sf with
  | 0 => simp [iter] at h
  | sf + 1 =>
    rw [iter] at h
    split at h
    · split at h
      · exact absurd h (by simp)
      · split at h
        · exact absurd h (by simp)
        · split at h
          · exact absurd h (by simp)
          · simp only [Option.some.injEq, Prod.mk.injEq] at h
            obtain ⟨h1, -, -⟩ := h
            subst h1
            cases node with
            | mk mv ch w v u p => simp [Node.update, Node.setChild]
    · split at h
      · exact absurd h (by simp)
      · simp only [Option.some.injEq, Prod.mk.injEq] at h
        obtain ⟨h1, -, -⟩ := h
        subst h1
        cases node with
        | mk mv ch w v u p => simp [Node.update]
    · simp only [] at h
      split at h
      · exact absurd h (by simp)
      · simp only [Option.some.injEq, Prod.mk.injEq] at h
        obtain ⟨h1, -, -⟩ := h
        subst h1
        cases node with
        | mk mv ch w v u p => simp [Node.update, Node.addChildNode]

theorem searchLoop_visits (g : Game S M) [DecidableEq M] (sf rf : ℕ) :
    ∀ (k : ℕ) (rng : List ℕ) (node : Node M) (s : S) (t : Node M)
      (rng' : List ℕ), searchLoop g sf rf k rng node s = some (t, rng') →
      t.visits = node.visits + k
  | 0, rng, node, s, t, rng', h => by
    rw [searchLoop] at h
    simp only [Option.some.injEq, Prod.mk.injEq] at h
    obtain ⟨h1, -⟩ := h
    rw [← h1]
    simp
  | k + 1, rng, node, s, t, rng', h => by
    rw [searchLoop] at h
    split at h
    · exact absurd h (by simp)
    · rename_i node' sT rng₁ heq
      have h2 := searchLoop_visits g sf rf k rng₁ node' s t rng' h
      have h3 := iter_visits g rf sf rng node s node' sT rng₁ heq
      omega

theorem iter_visitsInv (g : Game S M) [DecidableEq M] (rf : ℕ) :
    ∀ (sf : ℕ) (rng : List ℕ) (node : Node M) (s : S) (t' : Node M) (sT : S)
      (rng' : List ℕ), VisitsInv node →
      iter g rf sf rng node s = some (t', sT, rng') → VisitsInv t'
  | 0, _, _, _, _, _, _, _, h => by simp [iter] at h
  | sf + 1, rng, node, s, t', sT, rng', hv, h => by
    rcases hv with ⟨f1, f2, f3⟩
    rw [iter] at h
    split at h
    · -- Select branch
      split at h
      · exact absurd h (by simp)
      · rename_i i c heqSel
        split at h
        · exact absurd h (by simp)
        · rename_i m heqMove
          split at h
          · exact absurd h (by simp)
          · rename_i c' sT₀ rng₀ heqIter
            simp only [Option.some.injEq, Prod.mk.injEq] at h
            obtain ⟨h1, -, -⟩ := h
            subst h1
            rw [Node.UCTSelectChild] at heqSel
            have hc : c ∈ node.childNodes := pickLastMax_mem heqSel
            refine VisitsInv.mk (by simp) ?_ ?_
            · intro x hx
              rcases List.mem_or_eq_of_mem_set (by simpa using hx) with hx' | rfl
              · exact f2 x hx'
              · have := iter_visits g rf sf rng c (g.doMove m s) x sT₀ rng₀ heqIter
                omega
            · intro x hx
              rcases List.mem_or_eq_of_mem_set (by simpa using hx) with hx' | rfl
              · exact f3 x hx'
              · exact iter_visitsInv g rf sf rng c (g.doMove m s) x sT₀ rng₀
                  (f3 c hc) heqIter
    · -- Terminal branch
      split at h
      · exact absurd h (by simp)
      · simp only [Option.some.injEq, Prod.mk.injEq] at h
        obtain ⟨h1, -, -⟩ := h
        subst h1
        exact VisitsInv.mk (by simp) (by simpa using f2) (by simpa using f3)
    · -- Expand branch
      simp only [] at h
      split at h
      · exact absurd h (by simp)
      · simp only [Option.some.injEq, Prod.mk.injEq] at h
        obtain ⟨h1, -, -⟩ := h
        subst h1
        refine VisitsInv.mk (by simp) ?_ ?_
        · intro x hx
          simp only [Node.update_childNodes, Node.addChildNode_childNodes,
            List.mem_append, List.mem_singleton] at hx
          rcases hx with hx' | rfl
          · exact f2 x hx'
          · simp
        · intro x hx
          simp only [Node.update_childNodes, Node.addChildNode_childNodes,
            List.mem_append, List.mem_singleton] at hx
          rcases hx with hx' | rfl
          · exact f3 x hx'
          · exact VisitsInv.mk (by simp) (by simp) (by simp)

theorem searchLoop_visitsInv (g : Game S M) [DecidableEq M] (sf rf : ℕ) :
    ∀ (k : ℕ) (rng : List ℕ) (node : Node M) (s : S) (t : Node M)
      (rng' : List ℕ), VisitsInv node →
      searchLoop g sf rf k rng node s = some (t, rng') → VisitsInv t
  | 0, rng, node, s, t, rng', hv, h => by
    rw [searchLoop] at h
    simp only [Option.some.injEq, Prod.mk.injEq] at h
    obtain ⟨h1, -⟩ := h
    rw [← h1]
    exact hv
  | k + 1, rng, node, s, t, rng', hv, h => by
    rw [searchLoop] at h
    split at h
    · exact absurd h (by simp)
    · rename_i node' sT rng₁ heq
      exact searchLoop_visitsInv g sf rf k rng₁ node' s t rng'
        (iter_visitsInv g rf sf rng node s node' sT rng₁ hv heq) h

theorem visitsInv_subnode {t u : Node M} (hs : Subnode u t) :
    VisitsInv t → VisitsInv u ∧ (u = t ∨ 1 ≤ u.visits) := by
  induction hs with
  | refl => exact fun hv => ⟨hv, Or.inl rfl⟩
  | child hc _ ih =>
      intro hv
      rcases hv with ⟨-, f2, f3⟩
      rcases ih (f3 _ hc) with ⟨hu, hor⟩
      refine ⟨hu, Or.inr ?_⟩
      rcases hor with rfl | h
      · exact f2 _ hc
      · exact h

theorem iter_winsInv (g : Game S M) [DecidableEq M]
    (hres : ∀ (p : ℕ) (st : S), 0 ≤ g.getResult p st ∧ g.getResult p st ≤ 1)
    (rf : ℕ) :
    ∀ (sf : ℕ) (rng : List ℕ) (node : Node M) (s : S) (t' : Node M) (sT : S)
      (rng' : List ℕ), WinsInv node →
      iter g rf sf rng node s = some (t', sT, rng') → WinsInv t'
  | 0, _, _, _, _, _, _, _, h => by simp [iter] at h
  | sf + 1, rng, node, s, t', sT, rng', hv, h => by
    rcases hv with ⟨f1, f2, f3⟩
    rw [iter] at h
    split at h
    · -- Select branch
      split at h
      · exact absurd h (by simp)
      · rename_i i c heqSel
        split at h
        · exact absurd h (by simp)
        · rename_i m heqMove
          split at h
          · exact absurd h (by simp)
          · rename_i c' sT₀ rng₀ heqIter
            simp only [Option.some.injEq, Prod.mk.injEq] at h
            obtain ⟨h1, -, -⟩ := h
            subst h1
            rw [Node.UCTSelectChild] at heqSel
            have hc : c ∈ node.childNodes := pickLastMax_mem heqSel
            obtain ⟨hr0, hr1⟩ := hres node.playerJustMoved sT₀
            refine WinsInv.mk (by simp; positivity) ?_ ?_
            · simp only [Node.update_wins, Node.update_visits, Node.setChild_wins,
                Node.setChild_visits]
              push_cast
              linarith
            · intro x hx
              rcases List.mem_or_eq_of_mem_set (by simpa using hx) with hx' | rfl
              · exact f3 x hx'
              · exact iter_winsInv g hres rf sf rng c (g.doMove m s) x sT₀ rng₀
                  (f3 c hc) heqIter
    · -- Terminal branch
      split at h
      · exact absurd h (by simp)
      · rename_i sT₀ rng₀ heqRoll
        simp only [Option.some.injEq, Prod.mk.injEq] at h
        obtain ⟨h1, -, -⟩ := h
        subst h1
        obtain ⟨hr0, hr1⟩ := hres node.playerJustMoved sT₀
        refine WinsInv.mk (by simp; positivity) ?_ (by simpa using f3)
        simp only [Node.update_wins, Node.update_visits]
        push_cast
        linarith
    · -- Expand branch
      simp only [] at h
      split at h
      · exact absurd h (by simp)
      · rename_i sT₀ rng₀ heqRoll
        simp only [Option.some.injEq, Prod.mk.injEq] at h
        obtain ⟨h1, -, -⟩ := h
        subst h1
        obtain ⟨hr0, hr1⟩ := hres node.playerJustMoved sT₀
        refine WinsInv.mk (by simp; positivity) ?_ ?_
        · simp only [Node.update_wins, Node.update_visits, Node.addChildNode_wins,
            Node.addChildNode_visits]
          push_cast
          linarith
        · intro x hx
          simp only [Node.update_childNodes, Node.addChildNode_childNodes,
            List.mem_append, List.mem_singleton] at hx
          rcases hx with hx' | rfl
          · exact f3 x hx'
          · obtain ⟨hr0', hr1'⟩ := hres (g.playerJustMoved (g.doMove _ s)) sT₀
            refine WinsInv.mk ?_ ?_ (by simp)
            · simp
              positivity
            · simp
              linarith

theorem searchLoop_winsInv (g : Game S M) [DecidableEq M]
    (hres : ∀ (p : ℕ) (st : S), 0 ≤ g.getResult p st ∧ g.getResult p st ≤ 1)
    (sf rf : ℕ) :
    ∀ (k : ℕ) (rng : List ℕ) (node : Node M) (s : S) (t : Node M)
      (rng' : List ℕ), WinsInv node →
      searchLoop g sf rf k rng node s = some (t, rng') → WinsInv t
  | 0, rng, node, s, t, rng', hv, h => by
    rw [searchLoop] at h
    simp only [Option.some.injEq, Prod.mk.injEq] at h
    obtain ⟨h1, -⟩ := h
    rw [← h1]
    exact hv
  | k + 1, rng, node, s, t, rng', hv, h => by
    rw [searchLoop] at h
    split at h
    · exact absurd h (by simp)
    · rename_i node' sT rng₁ heq
      exact searchLoop_winsInv g hres sf rf k rng₁ node' s t rng'
        (iter_winsInv g hres rf sf rng node s node' sT rng₁ hv heq) h

theorem winsInv_subnode {t u : Node M} (hs : Subnode u t) :
    WinsInv t → 0 ≤ u.wins ∧ u.wins ≤ (u.visits : ℚ) := by
  induction hs with
  | refl => exact fun hv => by rcases hv with ⟨f1, f2, -⟩; exact ⟨f1, f2⟩
  | child hc _ ih =>
      intro hv
      rcases hv with ⟨-, -, f3⟩
      exact ih (f3 _ hc)

theorem filterMap_set_eq {α γ : Type} (f : α → Option γ) :
    ∀ (l : List α) (i : ℕ) (a : α), ∀ hi : i < l.length, f a = f l[i] →
      (l.set i a).filterMap f = l.filterMap f
  | [], i, a, hi, _ => by simp at hi
  | x :: xs, 0, a, hi, hf => by
    simp only [List.getElem_cons_zero] at hf
    simp [List.filterMap_cons, hf]
  | x :: xs, i + 1, a, hi, hf => by
    simp only [List.getElem_cons_succ] at hf
    simp only [List.set_cons_succ, List.filterMap_cons]
    rw [filterMap_set_eq f xs i a (by simpa using hi) hf]

theorem iter_treeOK (g : Game S M) [DecidableEq M] (rf : ℕ) :
    ∀ (sf : ℕ) (rng : List ℕ) (node : Node M) (s : S) (t' : Node M) (sT : S)
      (rng' : List ℕ), TreeOK g s node →
      iter g rf sf rng node s = some (t', sT, rng') → TreeOK g s t'
  | 0, _, _, _, _, _, _, _, h => by simp [iter] at h
  | sf + 1, rng, node, s, t', sT, rng', hv, h => by
    rcases hv with ⟨f1, f2, f3⟩
    rw [iter] at h
    split at h
    · -- Select branch
      split at h
      · exact absurd h (by simp)
      · rename_i i c heqSel
        split at h
        · exact absurd h (by simp)
        · rename_i m heqMove
          split at h
          · exact absurd h (by simp)
          · rename_i c' sT₀ rng₀ heqIter
            simp only [Option.some.injEq, Prod.mk.injEq] at h
            obtain ⟨h1, -, -⟩ := h
            subst h1
            rw [Node.UCTSelectChild] at heqSel
            have hc : c ∈ node.childNodes := pickLastMax_mem heqSel
            obtain ⟨hi, hgi⟩ := pickLastMax_idx heqSel
            have hmv : c'.move = c.move :=
              (iter_move_pjm g rf sf rng c (g.doMove m s) c' sT₀ rng₀ heqIter).1
            have hok' : TreeOK g (g.doMove m s) c' :=
              iter_treeOK g rf sf rng c (g.doMove m s) c' sT₀ rng₀
                (f3 c hc m heqMove) heqIter
            refine TreeOK.mk ?_ ?_ ?_
            · simp only [Node.update_untriedMoves, Node.update_childNodes,
                Node.setChild_untriedMoves, Node.setChild_childNodes]
              rw [filterMap_set_eq Node.move node.childNodes i c' hi
                (by rw [hmv, hgi])]
              exact f1
            · intro x hx
              rcases List.mem_or_eq_of_mem_set (by simpa using hx) with hx' | rfl
              · exact f2 x hx'
              · rw [hmv, heqMove]
                simp
            · intro x hx m' hm'
              rcases List.mem_or_eq_of_mem_set (by simpa using hx) with hx' | rfl
              · exact f3 x hx' m' hm'
              · rw [hmv, heqMove, Option.some_inj] at hm'
                subst hm'
                exact hok'
    · -- Terminal branch
      split at h
      · exact absurd h (by simp)
      · simp only [Option.some.injEq, Prod.mk.injEq] at h
        obtain ⟨h1, -, -⟩ := h
        subst h1
        exact TreeOK.mk (by simpa using f1) (by simpa using f2) (by simpa using f3)
    · -- Expand branch
      rename_i u us hequ
      simp only [] at h
      split at h
      · exact absurd h (by simp)
      · rename_i sT₀ rng₀ heqRoll
        simp only [Option.some.injEq, Prod.mk.injEq] at h
        obtain ⟨h1, -, -⟩ := h
        subst h1
        have hlen : rng.headD 0 % (u :: us).length < (u :: us).length :=
          Nat.mod_lt _ (by simp)
        have hgd : (u :: us).getD (rng.headD 0 % (u :: us).length) u =
            (u :: us)[rng.headD 0 % (u :: us).length] :=
          List.getD_eq_getElem (u :: us) u hlen
        have hm : (u :: us).getD (rng.headD 0 % (u :: us).length) u ∈
            node.untriedMoves := by
          rw [hequ, hgd]
          exact List.getElem_mem hlen
        refine TreeOK.mk ?_ ?_ ?_
        · simp only [Node.update_untriedMoves, Node.update_childNodes,
            Node.addChildNode_untriedMoves, Node.addChildNode_childNodes,
            List.filterMap_append, List.filterMap_cons, Node.update_move,
            Node.mkFromState_move, List.filterMap_nil]
          refine List.Perm.trans ?_ f1
          rw [← List.append_assoc]
          refine (List.perm_append_singleton _ _).trans ?_
          exact ((List.perm_cons_erase hm).append_right
            (node.childNodes.filterMap Node.move)).symm
        · intro x hx
          simp only [Node.update_childNodes, Node.addChildNode_childNodes,
            List.mem_append, List.mem_singleton] at hx
          rcases hx with hx' | rfl
          · exact f2 x hx'
          · simp
        · intro x hx m' hm'
          simp only [Node.update_childNodes, Node.addChildNode_childNodes,
            List.mem_append, List.mem_singleton] at hx
          rcases hx with hx' | rfl
          · exact f3 x hx' m' hm'
          · simp only [Node.update_move, Node.mkFromState_move,
              Option.some_inj] at hm'
            subst hm'
            exact TreeOK.mk (by simp) (by simp) (by simp)

theorem searchLoop_treeOK (g : Game S M) [DecidableEq M] (sf rf : ℕ) :
    ∀ (k : ℕ) (rng : List ℕ) (node : Node M) (s : S) (t : Node M)
      (rng' : List ℕ), TreeOK g s node →
      searchLoop g sf rf k rng node s = some (t, rng') → TreeOK g s t
  | 0, rng, node, s, t, rng', hv, h => by
    rw [searchLoop] at h
    simp only [Option.some.injEq, Prod.mk.injEq] at h
    obtain ⟨h1, -⟩ := h
    rw [← h1]
    exact hv
  | k + 1, rng, node, s, t, rng', hv, h => by
    rw [searchLoop] at h
    split at h
    · exact absurd h (by simp)
    · rename_i node' sT rng₁ heq
      exact searchLoop_treeOK g sf rf k rng₁ node' s t rng'
        (iter_treeOK g rf sf rng node s node' sT rng₁ hv heq) h

theorem treeOK_subnode {g : Game S M} {t u : Node M} (hs : Subnode u t) :
    ∀ s : S, TreeOK g s t → ∃ su : S,
      (u.untriedMoves ++ u.childNodes.filterMap Node.move).Perm (g.getMoves su) := by
  induction hs with
  | refl =>
      intro s hok
      rcases hok with ⟨f1, -, -⟩
      exact ⟨s, f1⟩
  | child hc _ ih =>
      intro s hok
      rcases hok with ⟨-, f2, f3⟩
      rcases Option.ne_none_iff_exists'.mp (f2 _ hc) with ⟨m, hm⟩
      exact ih (g.doMove m s) (f3 _ hc m hm)

theorem mkFromState_visitsInv (mv : Option M) (g : Game S M) (s : S) :
    VisitsInv (Node.mkFromState mv g s) :=
  VisitsInv.mk (by simp) (by simp) (by simp)

theorem mkFromState_winsInv (mv : Option M) (g : Game S M) (s : S) :
    WinsInv (Node.mkFromState mv g s) :=
  WinsInv.mk (by simp) (by simp) (by simp)

theorem mkFromState_treeOK (mv : Option M) (g : Game S M) (s : S) :
    TreeOK g s (Node.mkFromState mv g s) :=
  TreeOK.mk (by simp) (by simp) (by simp)

theorem rollout_of_terminal (g : Game S M) (fuel : ℕ) (rng : List ℕ) (s : S)
    (hterm : g.getMoves s = []) : rollout g fuel rng s = some (s, rng) := by
  cases fuel with
  | zero => rw [rollout, hterm]
  | succ f => rw [rollout, hterm]

theorem iter_of_terminal (g : Game S M) [DecidableEq M] (rf sf : ℕ)
    (rng : List ℕ) (node : Node M) (s : S) (hu : node.untriedMoves = [])
    (hc : node.childNodes = []) (hterm : g.getMoves s = []) :
    iter g rf (sf + 1) rng node s =
      some (node.update (g.getResult node.playerJustMoved s), s, rng) := by
  rw [iter, rollout_of_terminal g rf rng s hterm, hu, hc]

theorem searchLoop_of_terminal (g : Game S M) [DecidableEq M] (sf rf : ℕ)
    (hsf : 1 ≤ sf) (s : S) (hterm : g.getMoves s = []) :
    ∀ (k : ℕ) (rng : List ℕ) (node : Node M), node.untriedMoves = [] →
      node.childNodes = [] →
      ∃ (t : Node M) (rng' : List ℕ),
        searchLoop g sf rf k rng node s = some (t, rng') ∧
          t.untriedMoves = [] ∧ t.childNodes = []
  | 0, rng, node, hu, hc => ⟨node, rng, by rw [searchLoop], hu, hc⟩
  | k + 1, rng, node, hu, hc => by
    obtain ⟨sf', rfl⟩ : ∃ sf', sf = sf' + 1 := ⟨sf - 1, by omega⟩
    obtain ⟨t, rng', hrun, ht1, ht2⟩ :=
      searchLoop_of_terminal g (sf' + 1) rf hsf s hterm k rng
        (node.update (g.getResult node.playerJustMoved s)) (by simpa using hu)
        (by simpa using hc)
    refine ⟨t, rng', ?_, ht1, ht2⟩
    rw [searchLoop, iter_of_terminal g rf sf' rng node s hu hc hterm]
    exact hrun

theorem nim_run : searchLoop nimGame 1 2 2 [0, 0, 0]
    (Node.mkFromState none nimGame ⟨2, 2⟩) ⟨2, 2⟩ = some (nimFinalTree, []) := rfl

theorem nim_uct : UCT nimGame 1 2 [0, 0, 0] ⟨2, 2⟩ 2 = some 2 := rfl

/-- C4: after a completed search of `itermax` iterations from a freshly built
root, the root's visit counter equals exactly `itermax`: every iteration's
backpropagation walk reaches and updates the root. -/
theorem UCT_root_visit_conservation (g : Game S M) [DecidableEq M]
    (sf rf itermax : ℕ) (rng : List ℕ) (s : S) (t : Node M) (rng' : List ℕ)
    (hrun : searchLoop g sf rf itermax rng (Node.mkFromState none g s) s =
      some (t, rng')) :
    t.visits = itermax := by
  simpa using searchLoop_visits g sf rf itermax rng
    (Node.mkFromState none g s) s t rng' hrun

/-- C4 witness: the concrete two-iteration Nim run ends with root visit
counter 2. -/
theorem UCT_root_visit_conservation_witness : nimFinalTree.visits = 2 :=
  UCT_root_visit_conservation nimGame 1 2 2 [0, 0, 0] ⟨2, 2⟩ nimFinalTree []
    nim_run

/-- C1: a completed `UCT` call performs exactly `itermax` iterations (the
final root visit counter is `itermax`) and the returned move is the move of a
direct child of the root of maximal visit count. -/
theorem UCT_returns_most_visited_child (g : Game S M) [DecidableEq M]
    (sf rf itermax : ℕ) (rng : List ℕ) (s : S) (t : Node M) (rng' : List ℕ)
    (m : M)
    (hrun : searchLoop g sf rf itermax rng (Node.mkFromState none g s) s =
      some (t, rng'))
    (hm : UCT g sf rf rng s itermax = some m) :
    t.visits = itermax ∧
      ∃ c ∈ t.childNodes, c.move = some m ∧
        ∀ b ∈ t.childNodes, b.visits ≤ c.visits := by
  refine ⟨by simpa using searchLoop_visits g sf rf itermax rng _ s t rng' hrun, ?_⟩
  rw [UCT, hrun] at hm
  dsimp only at hm
  split at hm
  · exact absurd hm (by simp)
  · rename_i j c heqPick
    exact ⟨c, pickLastMax_mem heqPick, hm, fun b hb => pickLastMax_le heqPick b hb⟩

/-- C1 witness: on the concrete Nim run the driver returns move `2`, the move
of the child `nimChild2`, whose visit count is maximal among the root's
children. -/
theorem UCT_returns_most_visited_child_witness :
    nimFinalTree.visits = 2 ∧ nimChild2.move = some 2 ∧
      nimChild1.visits ≤ nimChild2.visits := by
  obtain ⟨h1, c, hcmem, hcmove, hmax⟩ :=
    UCT_returns_most_visited_child nimGame 1 2 2 [0, 0, 0] ⟨2, 2⟩ nimFinalTree
      [] 2 nim_run nim_uct
  have hcc : c = nimChild1 ∨ c = nimChild2 := by
    simpa [nimFinalTree] using hcmem
  rcases hcc with rfl | rfl
  · exact absurd hcmove (by simp [nimChild1])
  · exact ⟨h1, hcmove, hmax nimChild1 (by simp [nimFinalTree])⟩

/-- C10: when the search ends with several root children tied at the maximal
visit count, the returned move is that of the last-appended child among them,
because the final ranking is a stable ascending sort by visit count from
which the last element is taken. -/
theorem UCT_final_tie_last_expanded (g : Game S M) [DecidableEq M]
    (sf rf itermax : ℕ) (rng : List ℕ) (s : S) (t : Node M) (rng' : List ℕ)
    (l₁ l₂ : List (Node M)) (c : Node M)
    (hrun : searchLoop g sf rf itermax rng (Node.mkFromState none g s) s =
      some (t, rng'))
    (hch : t.childNodes = l₁ ++ c :: l₂)
    (h₁ : ∀ b ∈ l₁, b.visits ≤ c.visits)
    (htie : ∃ b ∈ l₁, b.visits = c.visits)
    (h₂ : ∀ b ∈ l₂, b.visits < c.visits) :
    UCT g sf rf rng s itermax = c.move := by
  have hpick : pickLastMax (fun d : Node M => d.visits) t.childNodes =
      some (l₁.length, c) := by
    rw [hch]
    exact pickLastMax_last h₁ h₂
  rw [UCT, hrun]
  simp only [hpick]

/-- C10 witness: in the concrete Nim run both root children have one visit;
the driver returns the move of the last-appended one, `nimChild2`. -/
theorem UCT_final_tie_last_expanded_witness :
    UCT nimGame 1 2 [0, 0, 0] ⟨2, 2⟩ 2 = nimChild2.move :=
  UCT_final_tie_last_expanded nimGame 1 2 2 [0, 0, 0] ⟨2, 2⟩ nimFinalTree []
    [nimChild1] [] nimChild2 nim_run rfl
    (fun b hb => by rw [List.mem_singleton] at hb; subst hb; exact le_refl _)
    ⟨nimChild1, List.mem_singleton_self _, rfl⟩
    (by simp)

/-- C2: `UCTSelectChild` returns a child maximizing
`wins/visits + sqrt(2 * ln(parentVisits) / childVisits)` over all children;
the selection key `ucbVal` carries no separate tunable exploration
multiplier (weight fixed at `1.0` inside the square-root term). -/
theorem UCTSelectChild_maximizes_ucb1 (n : Node M) (hn : 1 ≤ n.visits)
    (hch : ∀ c ∈ n.childNodes, 1 ≤ c.visits) (hne : n.childNodes ≠ []) :
    ∃ i c, n.UCTSelectChild = some (i, c) ∧ c ∈ n.childNodes ∧
      ∀ b ∈ n.childNodes, ucbVal n.visits b ≤ ucbVal n.visits c := by
  rw [Node.UCTSelectChild]
  rcases hlist : n.childNodes with - | ⟨a, l⟩
  · exact absurd hlist hne
  · obtain ⟨p, hp⟩ := pickLastMax_isSome (ucbVal n.visits) a l
    exact ⟨p.1, p.2, by simpa using hp, pickLastMax_mem hp, pickLastMax_le hp⟩

/-- C2 witness: on a node with two equally-scored children the selection is
defined (its preconditions are satisfiable and it produces a child). -/
theorem UCTSelectChild_maximizes_ucb1_witness :
    tieNode.UCTSelectChild ≠ none := by
  obtain ⟨i, c, hsel, -, -⟩ :=
    UCTSelectChild_maximizes_ucb1 tieNode (by decide) (by decide) (by simp [tieNode])
  rw [hsel]
  simp

/-- C3 counterexample: on a node whose two distinct children are tied at the
maximal UCB1 value, `UCTSelectChild` returns the second (last-appended)
child, at position 1 — not the first maximal element of the stable order, as
the claim states. -/
theorem UCTSelectChild_tie_first_counterexample :
    tieNode.childNodes = [tieChildA, tieChildB] ∧
      ucbVal tieNode.visits tieChildA = ucbVal tieNode.visits tieChildB ∧
      tieChildA ≠ tieChildB ∧
      tieNode.UCTSelectChild = some (1, tieChildB) ∧
      tieNode.UCTSelectChild ≠ some (0, tieChildA) := by
  have hsel : tieNode.UCTSelectChild = some (1, tieChildB) := by
    rw [Node.UCTSelectChild]
    show pickLastMax (ucbVal tieNode.visits) [tieChildA, tieChildB] = _
    have hcond : ucbVal tieNode.visits ((0 : ℕ), tieChildA).2 ≤
        ucbVal tieNode.visits tieChildB := le_of_eq rfl
    rw [pickLastMax, pickLastMaxAux, if_pos hcond, pickLastMaxAux]
  refine ⟨rfl, rfl, ?_, hsel, ?_⟩
  · intro h
    exact absurd (congrArg Node.move h) (by simp [tieChildA, tieChildB])
  · rw [hsel]
    intro h
    simp at h

/-- C3 amended: when several children attain the maximal UCB1 value,
`UCTSelectChild` returns the **last** maximal element of the stable order
over the children (the latest-appended among those tied at the maximum), at
its position in the child list. -/
theorem UCTSelectChild_tie_breaks_last (n : Node M) (l₁ l₂ : List (Node M))
    (c : Node M) (hch : n.childNodes = l₁ ++ c :: l₂)
    (h₁ : ∀ b ∈ l₁, ucbVal n.visits b ≤ ucbVal n.visits c)
    (h₂ : ∀ b ∈ l₂, ucbVal n.visits b < ucbVal n.visits c) :
    n.UCTSelectChild = some (l₁.length, c) := by
  rw [Node.UCTSelectChild, hch]
  exact pickLastMax_last h₁ h₂

/-- C3 witness: with the two tied children of `tieNode`, the amended rule
picks the last-appended child `tieChildB`, at position 1. -/
theorem UCTSelectChild_tie_breaks_last_witness :
    tieNode.UCTSelectChild = some (1, tieChildB) := by
  have h := UCTSelectChild_tie_breaks_last tieNode [tieChildA] [] tieChildB rfl
    (fun b hb => by
      rw [List.mem_singleton] at hb
      subst hb
      exact le_of_eq rfl)
    (by simp)
  simpa using h

/-- C5: after any completed search, the tree is covered by the
state-correspondence invariant: at every node, the untried moves together
with the moves of the materialized children are a permutation of the legal
moves of the state that created that node, and (when the game never offers
duplicate moves) that combined list has no duplicates. -/
theorem UCT_untried_child_partition (g : Game S M) [DecidableEq M]
    (hnodup : ∀ st : S, (g.getMoves st).Nodup)
    (sf rf k : ℕ) (rng : List ℕ) (s : S) (t : Node M) (rng' : List ℕ)
    (hrun : searchLoop g sf rf k rng (Node.mkFromState none g s) s =
      some (t, rng')) :
    TreeOK g s t ∧
      ∀ u, Subnode u t →
        ∃ su : S,
          (u.untriedMoves ++ u.childNodes.filterMap Node.move).Perm
            (g.getMoves su) ∧
          (u.untriedMoves ++ u.childNodes.filterMap Node.move).Nodup := by
  have hok : TreeOK g s t :=
    searchLoop_treeOK g sf rf k rng _ s t rng' (mkFromState_treeOK none g s) hrun
  refine ⟨hok, fun u hsub => ?_⟩
  obtain ⟨su, hperm⟩ := treeOK_subnode hsub s hok
  exact ⟨su, hperm, hperm.nodup_iff.mpr (hnodup su)⟩

/-- C5 witness: the concrete Nim run's final tree satisfies the partition
invariant with respect to the 2-chip root state. -/
theorem UCT_untried_child_partition_witness :
    TreeOK nimGame ⟨2, 2⟩ nimFinalTree :=
  (UCT_untried_child_partition nimGame
    (fun st => List.nodup_range' 1 _ 1 (by norm_num))
    1 2 2 [0, 0, 0] ⟨2, 2⟩ nimFinalTree [] nim_run).1

/-- C6: after a completed search with positive budget, every node of the
final tree has been visited at least once and its average score
`wins/visits` lies in `[0, 1]`, provided the game's results lie in
`{0, 1/2, 1}`. -/
theorem UCT_statistic_bounds (g : Game S M) [DecidableEq M]
    (hres : ∀ (p : ℕ) (st : S), g.getResult p st ∈ ({0, 1/2, 1} : Set ℚ))
    (sf rf itermax : ℕ) (rng : List ℕ) (s : S) (t : Node M) (rng' : List ℕ)
    (hiter : 1 ≤ itermax)
    (hrun : searchLoop g sf rf itermax rng (Node.mkFromState none g s) s =
      some (t, rng')) :
    ∀ u, Subnode u t → 1 ≤ u.visits ∧
      0 ≤ u.wins / (u.visits : ℚ) ∧ u.wins / (u.visits : ℚ) ≤ 1 := by
  have hres01 : ∀ (p : ℕ) (st : S),
      0 ≤ g.getResult p st ∧ g.getResult p st ≤ 1 := by
    intro p st
    have h := hres p st
    simp only [Set.mem_insert_iff, Set.mem_singleton_iff] at h
    rcases h with h | h | h <;> rw [h] <;> norm_num
  intro u hsub
  have hvis := visitsInv_subnode hsub (searchLoop_visitsInv g sf rf itermax rng
    _ s t rng' (mkFromState_visitsInv none g s) hrun)
  have hwins := winsInv_subnode hsub (searchLoop_winsInv g hres01 sf rf itermax
    rng _ s t rng' (mkFromState_winsInv none g s) hrun)
  have hroot : t.visits = itermax := by
    simpa using searchLoop_visits g sf rf itermax rng _ s t rng' hrun
  have h1 : 1 ≤ u.visits := by
    rcases hvis.2 with rfl | h
    · omega
    · exact h
  have hpos : (0 : ℚ) < (u.visits : ℚ) := by
    exact_mod_cast Nat.lt_of_lt_of_le Nat.zero_lt_one h1
  refine ⟨h1, div_nonneg hwins.1 hpos.le, ?_⟩
  rw [div_le_one hpos]
  exact hwins.2

/-- C6 witness: bounds hold at a concrete descendant of the concrete run's
final tree (the first expanded child). -/
theorem UCT_statistic_bounds_witness :
    1 ≤ nimChild1.visits ∧ 0 ≤ nimChild1.wins / (nimChild1.visits : ℚ) ∧
      nimChild1.wins / (nimChild1.visits : ℚ) ≤ 1 :=
  UCT_statistic_bounds nimGame
    (fun p st => by
      by_cases h : st.playerJustMoved = p <;> simp [nimGame, h])
    1 2 2 [0, 0, 0] ⟨2, 2⟩ nimFinalTree [] (by norm_num) nim_run nimChild1
    (Subnode.child (by simp [nimFinalTree]) (Subnode.refl _))

/-- C7: in every tree reachable by the driver (after any number of completed
iterations), every node to which the selection phase would apply
`UCTSelectChild` — a node with no untried moves and at least one child — has
visit counter at least 1, and so do all its children: the divisions and the
logarithm in the UCB1 formula are applied to positive visit counts. -/
theorem UCTSelectChild_preconditions_hold (g : Game S M) [DecidableEq M]
    (sf rf k : ℕ) (rng : List ℕ) (s : S) (t : Node M) (rng' : List ℕ)
    (hrun : searchLoop g sf rf k rng (Node.mkFromState none g s) s =
      some (t, rng')) :
    ∀ u, Subnode u t → u.untriedMoves = [] → u.childNodes ≠ [] →
      1 ≤ u.visits ∧ ∀ c ∈ u.childNodes, 1 ≤ c.visits := by
  intro u hsub hu hc
  have hinv := (visitsInv_subnode hsub (searchLoop_visitsInv g sf rf k rng _ s
    t rng' (mkFromState_visitsInv none g s) hrun)).1
  rcases hinv with ⟨f1, f2, -⟩
  exact ⟨f1 hc, f2⟩

/-- C7 witness: in the concrete run's final tree, the root is fully expanded
with children, its visit counter is positive, and so is its last child's. -/
theorem UCTSelectChild_preconditions_hold_witness :
    1 ≤ nimFinalTree.visits ∧ 1 ≤ nimChild2.visits := by
  have h := UCTSelectChild_preconditions_hold nimGame 1 2 2 [0, 0, 0] ⟨2, 2⟩
    nimFinalTree [] nim_run nimFinalTree (Subnode.refl _) rfl
    (by simp [nimFinalTree])
  exact ⟨h.1, h.2 nimChild2 (by simp [nimFinalTree])⟩

/-- C8: searching a root position that is already terminal (empty legal-move
list) completes its iterations without ever giving the root a child, and the
driver then fails — the final `sorted(...)[-1]` indexes an empty list
(`IndexError`, embedded as `none`) instead of returning a move. -/
theorem UCT_terminal_root_fails (g : Game S M) [DecidableEq M]
    (sf rf itermax : ℕ) (rng : List ℕ) (s : S) (hterm : g.getMoves s = [])
    (hsf : 1 ≤ sf) :
    ∃ (t : Node M) (rng' : List ℕ),
      searchLoop g sf rf itermax rng (Node.mkFromState none g s) s =
        some (t, rng') ∧
      t.childNodes = [] ∧ UCT g sf rf rng s itermax = none := by
  obtain ⟨t, rng', hrun, -, hchild⟩ :=
    searchLoop_of_terminal g sf rf hsf s hterm itermax rng
      (Node.mkFromState none g s) (by simp [hterm]) (by simp)
  refine ⟨t, rng', hrun, hchild, ?_⟩
  rw [UCT, hrun]
  dsimp only
  rw [hchild]
  rfl

/-- C8 witness: searching the terminal 0-chip Nim position returns no move. -/
theorem UCT_terminal_root_fails_witness :
    UCT nimGame 1 1 [] (⟨0, 2⟩ : NimSt) 1 = none := by
  obtain ⟨t, rng', -, -, h⟩ :=
    UCT_terminal_root_fails nimGame 1 1 1 [] ⟨0, 2⟩ rfl (by norm_num)
  exact h

/-- C9: the rollout phase touches only the working position: whenever it
completes, the resulting position is terminal (its legal-move list is empty,
the loop's exit condition) and is obtained from the starting position purely
by a sequence of move applications; no tree node is consulted, created or
modified (the embedded `rollout` takes no tree argument at all). -/
theorem rollout_pure_and_terminates (g : Game S M) (fuel : ℕ) (rng : List ℕ)
    (s s' : S) (rng' : List ℕ) (h : rollout g fuel rng s = some (s', rng')) :
    g.getMoves s' = [] ∧
      ∃ ms : List M, s' = ms.foldl (fun st m => g.doMove m st) s :=
  rollout_terminal g fuel rng s s' rng' h

/-- C9 witness: a concrete one-move rollout from the 1-chip Nim position ends
in the terminal 0-chip position. -/
theorem rollout_pure_and_terminates_witness :
    nimGame.getMoves (⟨0, 2⟩ : NimSt) = [] :=
  (rollout_pure_and_terminates nimGame 1 [0] ⟨1, 1⟩ ⟨0, 2⟩ [] rfl).1

end MCTS
